import Mathlib

/-!
Verification of the `buffercompact` library (a keyed delay queue with
last-write-wins compaction and optional content-based deduplication).

The Go source in `buffercompact.go` is shallowly embedded: byte strings
become `List Nat` (each element a byte value), the badger store becomes an
association list from keys to stored entries (recording the value bytes and
the TTL the entry was written with), and the in-memory sorted set becomes a
list of `(key, score)` pairs kept in ascending `(score, key)` order.  A Go
function that can panic is embedded with result type `PanicOr`; fallible
operations return a `GoResult`.  `time.Now()` is passed explicitly as the
`now` argument of each operation.
-/

set_option autoImplicit false

namespace BufferCompact

/-- Outcome of a Go computation that either returns a value or panics
(e.g. a slice out-of-range panic). -/
inductive PanicOr (α : Type) where
  | ok : α → PanicOr α
  | panicked : PanicOr α
  deriving Repr, DecidableEq

/-- Errors surfaced by the embedded operations: `badger.ErrKeyNotFound`
from `txn.Get`, and the package's `ErrMaxValueCount`. -/
inductive GoError where
  | keyNotFound : GoError
  | maxValueCount : GoError
  deriving Repr, DecidableEq

/-- Outcome of a Go computation that returns a value, returns an error, or
panics. -/
inductive GoResult (α : Type) where
  | ok : α → GoResult α
  | error : GoError → GoResult α
  | panicked : GoResult α
  deriving Repr, DecidableEq

/-! ### Codec (`appendScoreBytes` / `removeScoreBytes`) -/

/-- `uint64(score)`: Go's conversion of an `int64` to a `uint64` is the
two's-complement reinterpretation, i.e. reduction modulo `2^64`. -/
def uint64OfInt64 (s : Int) : Nat := (s % (2 ^ 64 : Int)).toNat

/-- `binary.LittleEndian.PutUint64`: the 8 little-endian bytes of `n`. -/
def putUint64LE (n : Nat) : List Nat :=
  [n % 256, n / 2 ^ 8 % 256, n / 2 ^ 16 % 256, n / 2 ^ 24 % 256,
   n / 2 ^ 32 % 256, n / 2 ^ 40 % 256, n / 2 ^ 48 % 256, n / 2 ^ 56 % 256]

/-- `binary.LittleEndian.Uint64` on (at least) 8 bytes. -/
def readUint64LE (bs : List Nat) : Nat :=
  bs.getD 0 0 + bs.getD 1 0 * 2 ^ 8 + bs.getD 2 0 * 2 ^ 16 + bs.getD 3 0 * 2 ^ 24 +
    bs.getD 4 0 * 2 ^ 32 + bs.getD 5 0 * 2 ^ 40 + bs.getD 6 0 * 2 ^ 48 + bs.getD 7 0 * 2 ^ 56

/-- `int64(u)`: Go's conversion of a `uint64` back to `int64`
(two's-complement reinterpretation). -/
def int64OfUint64 (n : Nat) : Int :=
  if n < 2 ^ 63 then (n : Int) else (n : Int) - 2 ^ 64

/-- `appendScoreBytes(input, score)`: the payload followed by the 8-byte
little-endian encoding of the score. -/
def appendScoreBytes (input : List Nat) (score : Int) : List Nat :=
  input ++ putUint64LE (uint64OfInt64 score)

/-- `removeScoreBytes(value)`: split off the trailing 8 bytes and decode
them as a little-endian `int64`.  Go's slice expression
`value[len(value)-8:]` panics when `len(value) < 8` (negative index), so
the embedded function returns `.panicked` there. -/
def removeScoreBytes (value : List Nat) : PanicOr (Int × List Nat) :=
  if value.length < 8 then .panicked
  else
    .ok (int64OfUint64 (readUint64LE (value.drop (value.length - 8))),
         value.take (value.length - 8))

/-! ### Keys and byte strings -/

/-- `[]byte(s)` for the ASCII strings used as keys and unique ids. -/
def strBytes (s : String) : List Nat := s.data.map Char.toNat

/-- `fmt.Sprintf(DedupeKeyPrefix, key)` with `DedupeKeyPrefix =
"unique_value:%s"`: the store key of the dedup marker for `key`. -/
def dedupeKeyFor (key : String) : String := "unique_value:" ++ key

/-- The store key under which `StoreToQueue` writes the main entry: the
code uses `[]byte(item.Key)` directly (the declared `KeyPrefix`
`"compact_key:%s"` is never used). -/
def mainKeyFor (key : String) : String := key

/-! ### The value store (badger, embedded as an association list) -/

/-- A stored entry: the value bytes together with the TTL the entry was
written with (`badger.Entry.WithTTL`); `none` means no TTL. -/
structure EntryVal where
  val : List Nat
  ttl : Option Int
  deriving Repr, DecidableEq

/-- The badger store: an association list from keys to entries. -/
abbrev Store := List (String × EntryVal)

/-- `txn.Get`: the entry stored under `k`, if any. -/
def storeGet : Store → String → Option EntryVal
  | [], _ => none
  | e :: rest, k => if e.1 = k then some e.2 else storeGet rest k

/-- `txn.Delete`: remove every binding of `k`. -/
def storeDelete : Store → String → Store
  | [], _ => []
  | e :: rest, k => if e.1 = k then storeDelete rest k else e :: storeDelete rest k

/-- `txn.SetEntry`: bind `k` to `v`, replacing any previous binding. -/
def storeSet (s : Store) (k : String) (v : EntryVal) : Store :=
  (k, v) :: storeDelete s k

/-- Iterated `storeDelete`, as performed by a sequence of committed
read-and-delete transactions. -/
def deleteKeys (s : Store) (ks : List String) : Store :=
  ks.foldl storeDelete s

/-! ### The ScoredSet

Modelled from the spec: the `sortedset` package (imported by
`buffercompact.go` as `github.com/parkerroan/buffercompact/sortedset`) is
a separate package whose source is not among the files verified here, so
the in-memory index is modelled from the specification's §4.1: "a mutable,
ordered set of `(key, score)` pairs", ascending score primary, ascending
key secondary, with `upsert`, key lookup, count, and the two
atomically-extracting range queries. -/

/-- A ScoredSet node: `(key, score)`. -/
abbrev SSet := List (String × Int)

/-- Modelled from the spec: ordering of ScoredSet nodes — "ascending score
primary; ascending key secondary". -/
def nodeLE (a b : String × Int) : Prop := a.2 < b.2 ∨ (a.2 = b.2 ∧ a.1 ≤ b.1)

instance : DecidableRel nodeLE := fun a b => by
  unfold nodeLE; infer_instance

/-- Modelled from the spec: insertion keeping the list sorted by
`nodeLE`. -/
def setInsert (n : String × Int) : SSet → SSet
  | [] => [n]
  | m :: rest => if nodeLE n m then n :: m :: rest else m :: setInsert n rest

/-- Modelled from the spec: `get(key)` — `GetByKey` in the source's calls;
returns the node with the given key, if any. -/
def getByKey : SSet → String → Option (String × Int)
  | [], _ => none
  | n :: rest, k => if n.1 = k then some n else getByKey rest k

/-- Modelled from the spec: removal of the node with the given key, if
present (`upsert` re-sorts an existing key by remove-and-insert). -/
def setRemoveKey (s : SSet) (k : String) : SSet :=
  s.filter (fun n => decide (n.1 ≠ k))

/-- Modelled from the spec: `upsert(key, score)` — `AddOrUpdate` in the
source's calls; removes any existing node for the key and re-inserts at
the sorted position. -/
def addOrUpdate (s : SSet) (k : String) (sc : Int) : SSet :=
  setInsert (k, sc) (setRemoveKey s k)

/-- Modelled from the spec: `pop_by_score_range(min, max, limit)` —
`GetByScoreRange(min, max, {Limit: limit, Remove: true})` in the source's
calls; extracts up to `limit` nodes whose scores lie in `[lo, hi]`, in
ascending order, returning the extracted nodes and the remaining set. -/
def popByScoreRange (s : SSet) (lo hi : Int) (limit : Nat) :
    List (String × Int) × SSet :=
  let sel := (s.filter (fun n => decide (lo ≤ n.2 ∧ n.2 ≤ hi))).take limit
  (sel, s.filter (fun n => decide (∀ m ∈ sel, m.1 ≠ n.1)))

/-- Modelled from the spec: `pop_by_rank_range(1, limit)` —
`GetByRankRange(1, limit, true)` in the source's calls; extracts the nodes
at ranks `1..limit` (clamped to the count). -/
def popByRankRange (s : SSet) (limit : Nat) : List (String × Int) × SSet :=
  (s.take limit, s.drop limit)

/-! ### Compactor configuration and state -/

/-- The `BufferCompactor`'s configuration fields. -/
structure Config where
  bufferDuration : Int
  maxValuesCount : Nat
  ttlDuration : Option Int
  dedupeDuration : Option Int
  deriving Repr, DecidableEq

/-- `WithMaxValueCount`. -/
def withMaxValueCount (n : Nat) (c : Config) : Config :=
  { c with maxValuesCount := n }

/-- `WithTTL`. -/
def withTTL (d : Int) (c : Config) : Config :=
  { c with ttlDuration := some d }

/-- `WithDedupeDuration`: the source's body is
`b.ttlDuration = &ttlDuration` — it assigns the `ttlDuration` field, not
`dedupeDuration` (which no option ever sets). -/
def withDedupeDuration (d : Int) (c : Config) : Config :=
  { c with ttlDuration := some d }

/-- The mutable state of a `BufferCompactor`: the badger store and the
in-memory sorted set. -/
structure State where
  store : Store
  set : SSet
  deriving Repr, DecidableEq

/-- `StorageItem`. -/
structure StorageItem where
  Key : String
  Value : List Nat
  UniqueID : String
  score : Int
  deriving Repr, DecidableEq

/-! ### StoreToQueue -/

/-- The body of the `db.Update` transaction in `StoreToQueue`: the dedupe
block (when `UniqueID` is non-empty: skip everything if the stored marker
equals the unique id, otherwise write the marker with TTL
`dedupeDuration`), then the main entry write with TTL `ttlDuration`.
In this model `SetEntry` cannot fail, so the transaction always commits;
the result is the store after the transaction. -/
def enqueueTxn (cfg : Config) (store : Store) (item : StorageItem) (score : Int) : Store :=
  if item.UniqueID = "" then
    storeSet store item.Key ⟨appendScoreBytes item.Value score, cfg.ttlDuration⟩
  else
    match storeGet store (dedupeKeyFor item.Key) with
    | some e =>
      if e.val = strBytes item.UniqueID then store
      else
        storeSet (storeSet store (dedupeKeyFor item.Key) ⟨strBytes item.UniqueID, cfg.dedupeDuration⟩)
          item.Key ⟨appendScoreBytes item.Value score, cfg.ttlDuration⟩
    | none =>
      storeSet (storeSet store (dedupeKeyFor item.Key) ⟨strBytes item.UniqueID, cfg.dedupeDuration⟩)
        item.Key ⟨appendScoreBytes item.Value score, cfg.ttlDuration⟩

/-- `StoreToQueue`: capacity gate, then the store transaction, then the
index update (`AddOrUpdate` only when the key is absent from the set —
note that this runs after the transaction whether or not the dedupe block
skipped the writes). -/
def storeToQueue (cfg : Config) (st : State) (item : StorageItem) (now : Int) :
    GoResult Unit × State :=
  if cfg.maxValuesCount ≠ 0 ∧ cfg.maxValuesCount ≤ st.set.length then
    (.error .maxValueCount, st)
  else
    let score := now + cfg.bufferDuration
    let newStore := enqueueTxn cfg st.store item score
    let newSet :=
      match getByKey st.set item.Key with
      | some _ => st.set
      | none => addOrUpdate st.set item.Key score
    (.ok (), ⟨newStore, newSet⟩)

/-! ### RetrieveFromQueue -/

/-- `RemoveFromDB`: read and delete by key in one transaction, then decode
the value.  If `txn.Get` fails the transaction is discarded with the store
unchanged; the delete commits before `removeScoreBytes` runs, so a short
stored value panics with the key already removed. -/
def removeFromDB (st : State) (k : String) : GoResult StorageItem × State :=
  match storeGet st.store k with
  | none => (.error .keyNotFound, st)
  | some e =>
    match removeScoreBytes e.val with
    | .panicked => (.panicked, ⟨storeDelete st.store k, st.set⟩)
    | .ok (sc, stripped) => (.ok ⟨k, stripped, "", sc⟩, ⟨storeDelete st.store k, st.set⟩)

/-- The per-candidate loop of `RetrieveFromQueue`: call `RemoveFromDB` for
each selected node in order; on the first error return it (the items read
so far are discarded — Go returns `nil, err`). -/
def removeLoop (st : State) : List (String × Int) → GoResult (List StorageItem) × State
  | [] => (.ok [], st)
  | n :: ns =>
    match removeFromDB st n.1 with
    | (.ok item, st') =>
      match removeLoop st' ns with
      | (.ok items, st'') => (.ok (item :: items), st'')
      | (.error e, st'') => (.error e, st'')
      | (.panicked, st'') => (.panicked, st'')
    | (.error e, st') => (.error e, st')
    | (.panicked, st') => (.panicked, st')

/-- The candidate-selection step of `RetrieveFromQueue`: the overflow path
(`GetByRankRange(1, limit, true)`) when `maxValuesCount` is nonzero and
the count has reached it, otherwise the time path
(`GetByScoreRange(-1, now, {Limit: limit, Remove: true})`). -/
def selectCandidates (cfg : Config) (s : SSet) (limit : Nat) (now : Int) :
    List (String × Int) × SSet :=
  if cfg.maxValuesCount ≠ 0 ∧ cfg.maxValuesCount ≤ s.length then
    popByRankRange s limit
  else
    popByScoreRange s (-1) now limit

/-- `RetrieveFromQueue`: select (and remove) candidates from the set, then
run the per-candidate store removals. -/
def retrieveFromQueue (cfg : Config) (st : State) (limit : Nat) (now : Int) :
    GoResult (List StorageItem) × State :=
  let pr := selectCandidates cfg st.set limit now
  removeLoop ⟨st.store, pr.2⟩ pr.1

/-! ### Recovery (`PopulateSetFromDB` and `New`) -/

/-- The iteration loop of `PopulateSetFromDB`: for every entry of the
store (dedup markers included — the loop makes no distinction), decode the
stored score with `removeScoreBytes` (panicking on values shorter than 8
bytes) and insert the key if absent from the set. -/
def populateLoop : Store → SSet → PanicOr SSet
  | [], s => .ok s
  | (k, e) :: rest, s =>
    match removeScoreBytes e.val with
    | .ok (sc, _) =>
      populateLoop rest
        (match getByKey s k with
         | some _ => s
         | none => addOrUpdate s k sc)
    | .panicked => .panicked

/-- `PopulateSetFromDB`: iterate the whole store into a fresh set. -/
def populateSetFromDB (store : Store) : PanicOr SSet :=
  populateLoop store []

/-- `New`: fold the options over the default configuration
(`maxValuesCount = 0`, no TTLs). -/
def newConfig (bufferDuration : Int) (opts : List (Config → Config)) : Config :=
  opts.foldl (fun c o => o c) ⟨bufferDuration, 0, none, none⟩

/-- `New`: build the configuration and run `PopulateSetFromDB` against the
given store. -/
def newCompactor (db : Store) (bufferDuration : Int) (opts : List (Config → Config)) :
    PanicOr (Config × State) :=
  match populateSetFromDB db with
  | .ok s => .ok (newConfig bufferDuration opts, ⟨db, s⟩)
  | .panicked => .panicked

/-! ### Sequential executions -/

/-- One sequential API call: an enqueue of an item or a dequeue with a
limit, each tagged with the `time.Now().Unix()` value observed during the
call. -/
inductive Op where
  | enq : StorageItem → Int → Op
  | deq : Nat → Int → Op

/-- The wall-clock instant at which an operation runs. -/
def opTime : Op → Int
  | .enq _ now => now
  | .deq _ now => now

/-- The unique id carried by an operation (dequeues carry none). -/
def opUniq : Op → String
  | .enq item _ => item.UniqueID
  | .deq _ _ => ""

/-- Apply one operation to the state, keeping the resulting state whether
or not the call reported an error. -/
def applyOp (cfg : Config) (st : State) : Op → State
  | .enq item now => (storeToQueue cfg st item now).2
  | .deq limit now => (retrieveFromQueue cfg st limit now).2

/-- Run a sequential list of operations. -/
def run (cfg : Config) (st : State) : List Op → State
  | [] => st
  | op :: ops => run cfg (applyOp cfg st op) ops

/-- The store-index coherence invariant: set keys are distinct, and every
node `(k, sc)` of the set is backed by a live store entry whose value
encodes some score between `sc` and `t + bufferDuration` (where `t` bounds
every call time seen so far). -/
def SetInv (cfg : Config) (t : Int) (st : State) : Prop :=
  (st.set.map Prod.fst).Nodup ∧
  ∀ n ∈ st.set, ∃ e p ssc, storeGet st.store n.1 = some e ∧
    e.val = appendScoreBytes p ssc ∧ n.2 ≤ ssc ∧ ssc ≤ t + cfg.bufferDuration

/-- The main entry `StoreToQueue` writes for payload `p` and score `sc`. -/
def mainEntry (cfg : Config) (p : List Nat) (sc : Int) : EntryVal :=
  ⟨appendScoreBytes p sc, cfg.ttlDuration⟩

/-- Whether the store holds, under `k`, a live entry long enough to decode
(at least 8 bytes). -/
def liveLong (s : Store) (k : String) : Bool :=
  match storeGet s k with
  | some e => decide (8 ≤ e.val.length)
  | none => false

/-! ## Store lemmas -/

theorem storeGet_storeDelete_ne (s : Store) (k k' : String) (h : k ≠ k') :
    storeGet (storeDelete s k') k = storeGet s k := by
  induction s with
  | nil => rfl
  | cons e rest ih =>
    simp only [storeDelete, storeGet]
    by_cases he : e.1 = k'
    · rw [if_pos he, if_neg (by rw [he]; exact fun hk => h hk.symm)]
      exact ih
    · rw [if_neg he]
      simp only [storeGet]
      by_cases hk : e.1 = k
      · rw [if_pos hk, if_pos hk]
      · rw [if_neg hk, if_neg hk]
        exact ih

theorem storeGet_storeSet_self (s : Store) (k : String) (v : EntryVal) :
    storeGet (storeSet s k v) k = some v := by
  simp [storeSet, storeGet]

theorem storeGet_storeSet_ne (s : Store) (k k' : String) (v : EntryVal) (h : k ≠ k') :
    storeGet (storeSet s k' v) k = storeGet s k := by
  simp only [storeSet, storeGet]
  rw [if_neg (fun hk => h hk.symm)]
  exact storeGet_storeDelete_ne s k k' h

theorem storeGet_deleteKeys_not_mem (ks : List String) (s : Store) (k : String)
    (h : k ∉ ks) : storeGet (deleteKeys s ks) k = storeGet s k := by
  induction ks generalizing s with
  | nil => rfl
  | cons k' rest ih =>
    have hne : k ≠ k' := fun he => h (he ▸ List.mem_cons_self k' rest)
    have hrest : k ∉ rest := fun hm => h (List.mem_cons_of_mem k' hm)
    show storeGet (deleteKeys (storeDelete s k') rest) k = storeGet s k
    rw [ih (storeDelete s k') hrest, storeGet_storeDelete_ne s k k' hne]

/-! ## ScoredSet lemmas -/

theorem mem_setInsert (a n : String × Int) (l : SSet) :
    a ∈ setInsert n l ↔ a = n ∨ a ∈ l := by
  induction l with
  | nil => simp [setInsert]
  | cons m rest ih =>
    unfold setInsert
    by_cases h : nodeLE n m
    · rw [if_pos h]
      simp
    · rw [if_neg h]
      simp only [List.mem_cons, ih]
      tauto

theorem setInsert_perm (n : String × Int) (l : SSet) :
    List.Perm (setInsert n l) (n :: l) := by
  induction l with
  | nil => exact List.Perm.refl _
  | cons m rest ih =>
    simp only [setInsert]
    by_cases h : nodeLE n m
    · rw [if_pos h]
    · rw [if_neg h]
      exact List.Perm.trans (List.Perm.cons m ih) (List.Perm.swap n m rest)

theorem getByKey_eq_none_iff (s : SSet) (k : String) :
    getByKey s k = none ↔ ∀ n ∈ s, n.1 ≠ k := by
  induction s with
  | nil => simp [getByKey]
  | cons m rest ih =>
    simp only [getByKey]
    by_cases h : m.1 = k
    · rw [if_pos h]
      simp only [List.mem_cons]
      constructor
      · intro hc
        exact absurd hc (by simp)
      · intro hall
        exact absurd h (hall m (Or.inl rfl))
    · rw [if_neg h]
      rw [ih]
      constructor
      · intro hall n hn
        rcases List.mem_cons.mp hn with he | hm
        · rw [he]; exact h
        · exact hall n hm
      · intro hall n hn
        exact hall n (List.mem_cons_of_mem m hn)

theorem getByKey_some_mem (s : SSet) (k : String) (n : String × Int)
    (h : getByKey s k = some n) : n ∈ s ∧ n.1 = k := by
  induction s with
  | nil => simp [getByKey] at h
  | cons m rest ih =>
    simp only [getByKey] at h
    by_cases hm : m.1 = k
    · rw [if_pos hm] at h
      have he : m = n := Option.some.inj h
      rw [← he]
      exact ⟨List.mem_cons_self m rest, hm⟩
    · rw [if_neg hm] at h
      have hr := ih h
      exact ⟨List.mem_cons_of_mem m hr.1, hr.2⟩

theorem setRemoveKey_eq_self (s : SSet) (k : String) (h : ∀ n ∈ s, n.1 ≠ k) :
    setRemoveKey s k = s := by
  unfold setRemoveKey
  apply List.filter_eq_self.mpr
  intro n hn
  simp [h n hn]

theorem addOrUpdate_absent (s : SSet) (k : String) (sc : Int)
    (h : getByKey s k = none) : addOrUpdate s k sc = setInsert (k, sc) s := by
  unfold addOrUpdate
  rw [setRemoveKey_eq_self s k ((getByKey_eq_none_iff s k).mp h)]

theorem addOrUpdate_absent_nodup (s : SSet) (k : String) (sc : Int)
    (h : getByKey s k = none) (hnd : (s.map Prod.fst).Nodup) :
    ((addOrUpdate s k sc).map Prod.fst).Nodup := by
  rw [addOrUpdate_absent s k sc h]
  have hperm : List.Perm ((setInsert (k, sc) s).map Prod.fst) (k :: s.map Prod.fst) :=
    (setInsert_perm (k, sc) s).map Prod.fst
  rw [hperm.nodup_iff]
  refine List.Nodup.cons ?_ hnd
  intro hmem
  rcases List.mem_map.mp hmem with ⟨n, hn, hk⟩
  exact ((getByKey_eq_none_iff s k).mp h) n hn hk

/-! ## Codec lemmas -/

theorem putUint64LE_length (n : Nat) : (putUint64LE n).length = 8 := by
  simp [putUint64LE]

theorem readUint64LE_putUint64LE (n : Nat) (h : n < 2 ^ 64) :
    readUint64LE (putUint64LE n) = n := by
  simp only [readUint64LE, putUint64LE, List.getD_cons_zero, List.getD_cons_succ]
  omega

theorem uint64OfInt64_lt (s : Int) : uint64OfInt64 s < 2 ^ 64 := by
  unfold uint64OfInt64
  have h4 : s % (2 ^ 64 : Int) < 2 ^ 64 := Int.emod_lt_of_pos s (by norm_num)
  have h3 : (0 : Int) ≤ s % (2 ^ 64 : Int) := Int.emod_nonneg s (by norm_num)
  omega

theorem int64OfUint64_uint64OfInt64 (s : Int) (h1 : -(2 ^ 63) ≤ s) (h2 : s < 2 ^ 63) :
    int64OfUint64 (uint64OfInt64 s) = s := by
  unfold int64OfUint64 uint64OfInt64
  have h3 : (0 : Int) ≤ s % (2 ^ 64 : Int) := Int.emod_nonneg s (by norm_num)
  have h4 : s % (2 ^ 64 : Int) < 2 ^ 64 := Int.emod_lt_of_pos s (by norm_num)
  rcases le_or_lt 0 s with hs | hs
  · have h5 : s % (2 ^ 64 : Int) = s := Int.emod_eq_of_lt hs (by omega)
    rw [h5]
    simp only [Int.toNat_of_nonneg hs]
    omega
  · have h5 : s % (2 ^ 64 : Int) = s + 2 ^ 64 := by omega
    rw [h5]
    rw [if_neg (by omega)]
    omega

theorem appendScoreBytes_length (p : List Nat) (s : Int) :
    (appendScoreBytes p s).length = p.length + 8 := by
  simp [appendScoreBytes, putUint64LE]

/-- The codec round-trip, as a shared helper: decoding an encoded value
recovers the score (for scores in the `int64` range) and the payload. -/
theorem decode_encode (p : List Nat) (s : Int) (h1 : -(2 ^ 63) ≤ s) (h2 : s < 2 ^ 63) :
    removeScoreBytes (appendScoreBytes p s) = .ok (s, p) := by
  unfold removeScoreBytes
  rw [appendScoreBytes_length]
  rw [if_neg (by omega)]
  have h8 : p.length + 8 - 8 = p.length := by omega
  rw [h8]
  unfold appendScoreBytes
  have hl : (putUint64LE (uint64OfInt64 s)).length = 8 := putUint64LE_length _
  have htake : (p ++ putUint64LE (uint64OfInt64 s)).take p.length = p := List.take_left _ _
  have hdrop : (p ++ putUint64LE (uint64OfInt64 s)).drop p.length = putUint64LE (uint64OfInt64 s) :=
    List.drop_left _ _
  rw [htake, hdrop]
  rw [readUint64LE_putUint64LE _ (uint64OfInt64_lt s)]
  rw [int64OfUint64_uint64OfInt64 s h1 h2]

theorem removeScoreBytes_length (v : List Nat) (h : 8 ≤ v.length) :
    removeScoreBytes v =
      .ok (int64OfUint64 (readUint64LE (v.drop (v.length - 8))), v.take (v.length - 8)) := by
  unfold removeScoreBytes
  rw [if_neg (by omega)]

/-! ## RemoveFromDB / removeLoop lemmas -/

theorem liveLong_eq_true (s : Store) (k : String) (h : liveLong s k = true) :
    ∃ e, storeGet s k = some e ∧ 8 ≤ e.val.length := by
  unfold liveLong at h
  cases hg : storeGet s k with
  | none => rw [hg] at h; simp at h
  | some e =>
    rw [hg] at h
    simp only [decide_eq_true_eq] at h
    exact ⟨e, rfl, h⟩

theorem liveLong_of_entry (s : Store) (k : String) (e : EntryVal)
    (hg : storeGet s k = some e) (hl : 8 ≤ e.val.length) : liveLong s k = true := by
  unfold liveLong
  rw [hg]
  simpa using hl

theorem liveLong_storeDelete_ne (s : Store) (k k' : String) (h : k ≠ k') :
    liveLong (storeDelete s k') k = liveLong s k := by
  unfold liveLong
  rw [storeGet_storeDelete_ne s k k' h]

theorem removeFromDB_missing (st : State) (k : String) (h : storeGet st.store k = none) :
    removeFromDB st k = (.error .keyNotFound, st) := by
  unfold removeFromDB
  rw [h]

theorem removeFromDB_live (st : State) (k : String) (e : EntryVal)
    (hg : storeGet st.store k = some e) (hl : 8 ≤ e.val.length) :
    removeFromDB st k =
      (.ok ⟨k, e.val.take (e.val.length - 8), "",
          int64OfUint64 (readUint64LE (e.val.drop (e.val.length - 8)))⟩,
        ⟨storeDelete st.store k, st.set⟩) := by
  unfold removeFromDB
  rw [hg]
  dsimp only
  rw [removeScoreBytes_length e.val hl]

/-- The per-candidate loop hits a candidate with no live store entry: it
returns the error, the store keeps only the deletions performed for the
earlier (live) candidates, and the set is left as the loop received it. -/
theorem removeLoop_first_missing :
    ∀ (pre : List (String × Int)) (st : State) (n : String × Int) (rest : List (String × Int)),
      (∀ m ∈ pre, liveLong st.store m.1 = true) →
      storeGet st.store n.1 = none →
      ((pre ++ [n]).map Prod.fst).Nodup →
      removeLoop st (pre ++ n :: rest) =
        (.error .keyNotFound, ⟨deleteKeys st.store (pre.map Prod.fst), st.set⟩)
  | [], st, n, rest, _, hmiss, _ => by
    simp only [List.nil_append, removeLoop]
    rw [removeFromDB_missing st n.1 hmiss]
    rfl
  | m :: pre', st, n, rest, hlive, hmiss, hnd => by
    rcases liveLong_eq_true st.store m.1 (hlive m (List.mem_cons_self m pre')) with ⟨e, hg, hl⟩
    have hhead : m.1 ∉ (pre' ++ [n]).map Prod.fst := by
      have := hnd
      simp only [List.cons_append, List.map_cons, List.nodup_cons] at this
      exact this.1
    have hst' : ∀ m' ∈ pre', liveLong (storeDelete st.store m.1) m'.1 = true := by
      intro m' hm'
      have hne : m'.1 ≠ m.1 := by
        intro he
        exact hhead (he ▸ List.mem_map_of_mem Prod.fst (List.mem_append_left [n] hm'))
      rw [liveLong_storeDelete_ne st.store m'.1 m.1 hne]
      exact hlive m' (List.mem_cons_of_mem m hm')
    have hmiss' : storeGet (storeDelete st.store m.1) n.1 = none := by
      have hne : n.1 ≠ m.1 := by
        intro he
        exact hhead (he ▸ List.mem_map_of_mem Prod.fst (List.mem_append_right pre' (List.mem_singleton_self n)))
      rw [storeGet_storeDelete_ne st.store n.1 m.1 hne]
      exact hmiss
    have hnd' : ((pre' ++ [n]).map Prod.fst).Nodup := by
      have := hnd
      simp only [List.cons_append, List.map_cons, List.nodup_cons] at this
      exact this.2
    have ih := removeLoop_first_missing pre' ⟨storeDelete st.store m.1, st.set⟩ n rest hst' hmiss' hnd'
    simp only [List.cons_append, removeLoop]
    rw [removeFromDB_live st m.1 e hg hl]
    dsimp only [List.append_eq]
    rw [ih]
    rfl

/-- The per-candidate loop over candidates that all have live, decodable
store entries succeeds, deleting exactly the candidates' keys. -/
theorem removeLoop_all_live :
    ∀ (sel : List (String × Int)) (st : State),
      ((sel.map Prod.fst).Nodup) →
      (∀ n ∈ sel, liveLong st.store n.1 = true) →
      ∃ items, removeLoop st sel =
        (.ok items, ⟨deleteKeys st.store (sel.map Prod.fst), st.set⟩)
  | [], st, _, _ => ⟨[], rfl⟩
  | n :: ns, st, hnd, hlive => by
    rcases liveLong_eq_true st.store n.1 (hlive n (List.mem_cons_self n ns)) with ⟨e, hg, hl⟩
    have hhead : n.1 ∉ ns.map Prod.fst := by
      have := hnd
      simp only [List.map_cons, List.nodup_cons] at this
      exact this.1
    have hnd' : (ns.map Prod.fst).Nodup := by
      have := hnd
      simp only [List.map_cons, List.nodup_cons] at this
      exact this.2
    have hlive' : ∀ m ∈ ns, liveLong (storeDelete st.store n.1) m.1 = true := by
      intro m hm
      have hne : m.1 ≠ n.1 := by
        intro he
        exact hhead (he ▸ List.mem_map_of_mem Prod.fst hm)
      rw [liveLong_storeDelete_ne st.store m.1 n.1 hne]
      exact hlive m (List.mem_cons_of_mem n hm)
    rcases removeLoop_all_live ns ⟨storeDelete st.store n.1, st.set⟩ hnd' hlive' with ⟨items, heq⟩
    refine ⟨⟨n.1, e.val.take (e.val.length - 8), "",
      int64OfUint64 (readUint64LE (e.val.drop (e.val.length - 8)))⟩ :: items, ?_⟩
    simp only [removeLoop]
    rw [removeFromDB_live st n.1 e hg hl]
    dsimp only
    rw [heq]
    rfl

/-! ## C7: codec round-trip -/

/-- C7: for every byte string `p` and every 64-bit signed integer score
`s`, `removeScoreBytes (appendScoreBytes p s)` returns exactly `(s, p)`. -/
theorem C7_roundtrip (p : List Nat) (s : Int) (h1 : -(2 ^ 63) ≤ s) (h2 : s < 2 ^ 63) :
    removeScoreBytes (appendScoreBytes p s) = .ok (s, p) :=
  decode_encode p s h1 h2

theorem C7_roundtrip_witness :
    -(2 ^ 63) ≤ (-7 : Int) ∧ (-7 : Int) < 2 ^ 63 ∧
      removeScoreBytes (appendScoreBytes [10, 20] (-7)) = .ok (-7, [10, 20]) :=
  ⟨by norm_num, by norm_num, C7_roundtrip [10, 20] (-7) (by norm_num) (by norm_num)⟩

/-! ## C5: decode on short inputs -/

/-- C5 counterexample: on an input shorter than 8 bytes,
`removeScoreBytes` panics (Go slice-bounds panic); there is no signalled
Decode error — the function's result type has no error outcome at all, so
the claim's "reports a Decode error to the caller (a signalled failure,
not a crash)" is false on the code. -/
theorem C5_counterexample : removeScoreBytes [] = .panicked := rfl

/-- C5 (amended): `removeScoreBytes` splits the trailing 8 bytes off every
input of length at least 8, and on every input shorter than 8 bytes it
panics (a crash, not a reported error). -/
theorem C5_short_input_panics (v : List Nat) :
    (v.length < 8 → removeScoreBytes v = .panicked) ∧
    (8 ≤ v.length →
      removeScoreBytes v =
        .ok (int64OfUint64 (readUint64LE (v.drop (v.length - 8))), v.take (v.length - 8))) := by
  constructor
  · intro h
    unfold removeScoreBytes
    rw [if_pos h]
  · intro h
    exact removeScoreBytes_length v h

theorem C5_short_input_panics_witness :
    removeScoreBytes [9, 9, 9] = .panicked :=
  (C5_short_input_panics [9, 9, 9]).1 (by decide)

/-! ## C9: key-space disjointness -/

/-- C9 counterexample: the store key of the main entry for the user key
`"unique_value:x"` coincides with the store key of the dedup marker for
the user key `"x"` — the code writes main entries under the raw user key
(the declared `KeyPrefix` is never used), so nothing separates the two
key spaces for user keys that happen to start with `"unique_value:"`. -/
theorem C9_counterexample : mainKeyFor "unique_value:x" = dedupeKeyFor "x" := by decide

/-- C9 (amended): for every user key `k1` that does not itself start with
the 13-character marker text `"unique_value:"`, the main-entry store key
of `k1` differs from the dedup-marker store key of every user key `k2`. -/
theorem C9_amended (k1 k2 : String) (h : k1.data.take 13 ≠ ("unique_value:").data) :
    mainKeyFor k1 ≠ dedupeKeyFor k2 := by
  intro he
  apply h
  have hd : k1.data = ("unique_value:").data ++ k2.data := by
    have h2 := congrArg String.data he
    simpa [mainKeyFor, dedupeKeyFor] using h2
  rw [hd]
  have hlen : ("unique_value:").data.length = 13 := by decide
  rw [← hlen, List.take_left]

theorem C9_amended_witness : mainKeyFor "a" ≠ dedupeKeyFor "b" :=
  C9_amended "a" "b" (by decide)

/-! ## C4: dedup-marker TTL -/

/-- C4: evaluating the code at the failing input.  Configuring
`WithDedupeDuration 10` leaves the `dedupeDuration` field unset (the
option assigns `ttlDuration` instead), so the dedup marker written by
`StoreToQueue` carries no TTL while the main entry wrongly receives the
10-unit TTL — contradicting the claim that the marker is stored with TTL
equal to the configured duration. -/
theorem C4_option_sets_wrong_field :
    (newConfig 1 [withDedupeDuration 10]).dedupeDuration = none ∧
    (newConfig 1 [withDedupeDuration 10]).ttlDuration = some 10 ∧
    storeGet (storeToQueue (newConfig 1 [withDedupeDuration 10]) ⟨[], []⟩
        ⟨"k", [7], "u1", 0⟩ 0).2.store (dedupeKeyFor "k") =
      some ⟨strBytes "u1", none⟩ ∧
    storeGet (storeToQueue (newConfig 1 [withDedupeDuration 10]) ⟨[], []⟩
        ⟨"k", [7], "u1", 0⟩ 0).2.store (mainKeyFor "k") =
      some ⟨appendScoreBytes [7] 1, some 10⟩ := by
  refine ⟨rfl, rfl, ?_, ?_⟩ <;> decide

/-! ## C2: recovery and dedup markers -/

/-- C2: evaluating the code at the failing input.  `PopulateSetFromDB`
iterates every store entry with no marker check: recovering from a store
holding only the dedup marker for `"k"` (unique id `"uniqueid1!"`, 10
bytes) puts the marker key itself into the index, and recovering a marker
whose unique id is shorter than 8 bytes panics — the claim that markers
are skipped and the index ends up with only the non-dedup entries is
false on the code. -/
theorem C2_recovery_loads_markers :
    (match newCompactor [(dedupeKeyFor "k", ⟨strBytes "uniqueid1!", none⟩)] 1 [] with
      | .ok pr => (getByKey pr.2.set (dedupeKeyFor "k")).isSome
      | .panicked => false) = true ∧
    populateSetFromDB [(dedupeKeyFor "kk", ⟨strBytes "u1", none⟩)] = .panicked := by
  constructor
  · decide
  · decide

/-! ## C8: capacity gate -/

/-- C8: `StoreToQueue` fails with `ErrMaxValueCount` exactly when
`maxValuesCount` is nonzero and the set's count has reached it, and in
that case neither the store nor the set is changed. -/
theorem C8_capacity_gate (cfg : Config) (st : State) (item : StorageItem) (now : Int) :
    ((storeToQueue cfg st item now).1 = .error .maxValueCount ↔
      cfg.maxValuesCount ≠ 0 ∧ cfg.maxValuesCount ≤ st.set.length) ∧
    (cfg.maxValuesCount ≠ 0 ∧ cfg.maxValuesCount ≤ st.set.length →
      storeToQueue cfg st item now = (.error .maxValueCount, st)) := by
  unfold storeToQueue
  by_cases h : cfg.maxValuesCount ≠ 0 ∧ cfg.maxValuesCount ≤ st.set.length
  · rw [if_pos h]
    exact ⟨⟨fun _ => h, fun _ => rfl⟩, fun _ => rfl⟩
  · rw [if_neg h]
    refine ⟨⟨fun hc => absurd hc (by simp), fun hc => absurd hc h⟩, fun hc => absurd hc h⟩

theorem C8_capacity_gate_witness :
    storeToQueue ⟨5, 1, none, none⟩ ⟨[], [("a", 0)]⟩ ⟨"b", [1], "", 0⟩ 3 =
      (.error .maxValueCount, ⟨[], [("a", 0)]⟩) :=
  (C8_capacity_gate ⟨5, 1, none, none⟩ ⟨[], [("a", 0)]⟩ ⟨"b", [1], "", 0⟩ 3).2 (by decide)

/-- When the capacity gate passes, `storeToQueue` returns success with
the transacted store and the conditionally-updated set. -/
theorem storeToQueue_passes_gate (cfg : Config) (st : State) (item : StorageItem) (now : Int)
    (hcap : ¬(cfg.maxValuesCount ≠ 0 ∧ cfg.maxValuesCount ≤ st.set.length)) :
    storeToQueue cfg st item now =
      (.ok (), ⟨enqueueTxn cfg st.store item (now + cfg.bufferDuration),
        match getByKey st.set item.Key with
        | some _ => st.set
        | none => addOrUpdate st.set item.Key (now + cfg.bufferDuration)⟩) := by
  unfold storeToQueue
  rw [if_neg hcap]

/-! ## C1: dedup-matching enqueue -/

/-- C1 counterexample: with the dedup marker for `"k"` holding `"u1"` and
`"k"` absent from the index (the state left by a dequeue of `"k"`), a
`StoreToQueue` of `("k", [118], "u1")` succeeds and *adds* `"k"` to the
index — the index is not left unchanged as the claim states. -/
theorem C1_counterexample :
    (storeToQueue ⟨5, 0, none, none⟩ ⟨[(dedupeKeyFor "k", ⟨strBytes "u1", none⟩)], []⟩
        ⟨"k", [118], "u1", 0⟩ 100).1 = .ok () ∧
    (storeToQueue ⟨5, 0, none, none⟩ ⟨[(dedupeKeyFor "k", ⟨strBytes "u1", none⟩)], []⟩
        ⟨"k", [118], "u1", 0⟩ 100).2.set = [("k", 105)] := by
  constructor
  · decide
  · decide

/-- C1 (amended): when the capacity gate passes and the stored dedup
marker for `item.Key` equals the non-empty `item.UniqueID`,
`StoreToQueue` returns success and leaves the store unchanged; the index
is unchanged when `item.Key` is already present in it, but when the key
is absent it is added with score `now + bufferDuration`. -/
theorem C1_dedup_skip (cfg : Config) (st : State) (item : StorageItem) (now : Int)
    (ttl : Option Int)
    (hcap : ¬(cfg.maxValuesCount ≠ 0 ∧ cfg.maxValuesCount ≤ st.set.length))
    (hu : item.UniqueID ≠ "")
    (hmark : storeGet st.store (dedupeKeyFor item.Key) = some ⟨strBytes item.UniqueID, ttl⟩) :
    (storeToQueue cfg st item now).1 = .ok () ∧
    (storeToQueue cfg st item now).2.store = st.store ∧
    ((getByKey st.set item.Key).isSome = true →
      (storeToQueue cfg st item now).2.set = st.set) ∧
    (getByKey st.set item.Key = none →
      (storeToQueue cfg st item now).2.set =
        addOrUpdate st.set item.Key (now + cfg.bufferDuration)) := by
  have heq := storeToQueue_passes_gate cfg st item now hcap
  have htxn : enqueueTxn cfg st.store item (now + cfg.bufferDuration) = st.store := by
    unfold enqueueTxn
    rw [if_neg hu, hmark]
    simp
  rw [heq, htxn]
  refine ⟨rfl, rfl, ?_, ?_⟩
  · intro hsome
    cases hk : getByKey st.set item.Key with
    | none => rw [hk] at hsome; simp at hsome
    | some n => simp only [hk]
  · intro hnone
    simp only [hnone]

theorem C1_dedup_skip_witness :
    (storeToQueue ⟨5, 0, none, none⟩
        ⟨[(dedupeKeyFor "k", ⟨strBytes "u1", none⟩)], [("k", 7)]⟩
        ⟨"k", [118], "u1", 0⟩ 100).1 = .ok () ∧
    (storeToQueue ⟨5, 0, none, none⟩
        ⟨[(dedupeKeyFor "k", ⟨strBytes "u1", none⟩)], [("k", 7)]⟩
        ⟨"k", [118], "u1", 0⟩ 100).2.set = [("k", 7)] := by
  have h := C1_dedup_skip ⟨5, 0, none, none⟩
    ⟨[(dedupeKeyFor "k", ⟨strBytes "u1", none⟩)], [("k", 7)]⟩
    ⟨"k", [118], "u1", 0⟩ 100 none (by decide) (by decide) (by decide)
  exact ⟨h.1, h.2.2.1 (by decide)⟩

/-! ## C10: dequeue failure midway through the batch -/

/-- C10: if a selected candidate has no live store entry, the whole
`RetrieveFromQueue` call returns the error with no items: the entries of
the candidates before it are already deleted from the store, their
payloads are discarded, and the set remains exactly the post-selection
remainder (no selected candidate is re-inserted). -/
theorem C10_failed_removal (cfg : Config) (st : State) (limit : Nat) (now : Int)
    (pre : List (String × Int)) (n : String × Int) (rest : List (String × Int))
    (hsel : (selectCandidates cfg st.set limit now).1 = pre ++ n :: rest)
    (hlive : ∀ m ∈ pre, liveLong st.store m.1 = true)
    (hmiss : storeGet st.store n.1 = none)
    (hnd : ((pre ++ [n]).map Prod.fst).Nodup) :
    retrieveFromQueue cfg st limit now =
      (.error .keyNotFound,
        ⟨deleteKeys st.store (pre.map Prod.fst),
          (selectCandidates cfg st.set limit now).2⟩) := by
  show removeLoop ⟨st.store, (selectCandidates cfg st.set limit now).2⟩
      (selectCandidates cfg st.set limit now).1 = _
  rw [hsel]
  exact removeLoop_first_missing pre ⟨st.store, (selectCandidates cfg st.set limit now).2⟩
    n rest hlive hmiss hnd

theorem C10_failed_removal_witness :
    retrieveFromQueue ⟨1, 0, none, none⟩
        ⟨[("a", ⟨[0, 0, 0, 0, 0, 0, 0, 0], none⟩)], [("a", 1), ("b", 2)]⟩ 5 10 =
      (.error .keyNotFound, ⟨[], []⟩) := by
  have h := C10_failed_removal ⟨1, 0, none, none⟩
    ⟨[("a", ⟨[0, 0, 0, 0, 0, 0, 0, 0], none⟩)], [("a", 1), ("b", 2)]⟩ 5 10
    [("a", 1)] ("b", 2) [] (by decide) (by decide) (by decide) (by decide)
  exact h

/-! ## C6 machinery: repeated enqueues of one key, then a dequeue -/

/-- `storeToQueue` with capacity disabled and an empty unique id: success,
main-entry write, conditional index add. -/
theorem storeToQueue_no_dedupe (cfg : Config) (st : State) (item : StorageItem) (now : Int)
    (hmax : cfg.maxValuesCount = 0) (hu : item.UniqueID = "") :
    storeToQueue cfg st item now =
      (.ok (), ⟨storeSet st.store item.Key
          ⟨appendScoreBytes item.Value (now + cfg.bufferDuration), cfg.ttlDuration⟩,
        match getByKey st.set item.Key with
        | some _ => st.set
        | none => addOrUpdate st.set item.Key (now + cfg.bufferDuration)⟩) := by
  have hcap : ¬(cfg.maxValuesCount ≠ 0 ∧ cfg.maxValuesCount ≤ st.set.length) := by
    rw [hmax]; simp
  rw [storeToQueue_passes_gate cfg st item now hcap]
  unfold enqueueTxn
  rw [if_pos hu]

/-- The first enqueue on the empty state creates the singleton store and
singleton set. -/
theorem storeToQueue_empty_state (cfg : Config) (k : String) (p : List Nat) (sc0 t : Int)
    (hmax : cfg.maxValuesCount = 0) :
    (storeToQueue cfg ⟨[], []⟩ ⟨k, p, "", sc0⟩ t).2 =
      ⟨[(k, mainEntry cfg p (t + cfg.bufferDuration))], [(k, t + cfg.bufferDuration)]⟩ := by
  rw [storeToQueue_no_dedupe cfg ⟨[], []⟩ ⟨k, p, "", sc0⟩ t hmax rfl]
  simp [getByKey, storeSet, storeDelete, addOrUpdate, setRemoveKey, setInsert, mainEntry]

/-- A repeat enqueue of the singleton key overwrites the store entry and
leaves the set (and its score) unchanged. -/
theorem storeToQueue_singleton (cfg : Config) (k : String) (e : EntryVal) (s0 : Int)
    (p : List Nat) (sc0 t : Int) (hmax : cfg.maxValuesCount = 0) :
    (storeToQueue cfg ⟨[(k, e)], [(k, s0)]⟩ ⟨k, p, "", sc0⟩ t).2 =
      ⟨[(k, mainEntry cfg p (t + cfg.bufferDuration))], [(k, s0)]⟩ := by
  rw [storeToQueue_no_dedupe cfg ⟨[(k, e)], [(k, s0)]⟩ ⟨k, p, "", sc0⟩ t hmax rfl]
  simp [getByKey, storeSet, storeDelete, mainEntry]

/-- Folding any further enqueues of the same key over the singleton state
keeps the set fixed and leaves the store holding the last payload with the
last score. -/
theorem run_enq_singleton (cfg : Config) (k : String) (hmax : cfg.maxValuesCount = 0) :
    ∀ (rest : List (List Nat × Int)) (p0 : List Nat) (t0 s0 : Int),
      run cfg ⟨[(k, mainEntry cfg p0 (t0 + cfg.bufferDuration))], [(k, s0)]⟩
        (rest.map fun pt => Op.enq ⟨k, pt.1, "", 0⟩ pt.2) =
      ⟨[(k, mainEntry cfg (rest.getLastD (p0, t0)).1
          ((rest.getLastD (p0, t0)).2 + cfg.bufferDuration))], [(k, s0)]⟩
  | [], p0, t0, s0 => rfl
  | (p, t) :: rest', p0, t0, s0 => by
    simp only [List.map_cons, run, applyOp]
    rw [storeToQueue_singleton cfg k _ s0 p 0 t hmax]
    rw [run_enq_singleton cfg k hmax rest' p t s0]
    rw [List.getLastD_cons]

theorem popByScoreRange_singleton (k : String) (s0 lo hi : Int) (m : Nat)
    (h1 : lo ≤ s0) (h2 : s0 ≤ hi) :
    popByScoreRange [(k, s0)] lo hi (m + 1) = ([(k, s0)], []) := by
  unfold popByScoreRange
  have ht : (decide (lo ≤ s0 ∧ s0 ≤ hi)) = true := decide_eq_true ⟨h1, h2⟩
  simp only [List.filter_cons, List.filter_nil, ht, if_pos, List.take_succ_cons, List.take_nil]
  have hf : (decide (∀ x ∈ [(k, s0)], x.1 ≠ (k, s0).1)) = false := by
    rw [decide_eq_false_iff_not]
    intro h
    exact h (k, s0) (List.mem_singleton_self _) rfl
  simp only [hf]
  simp

theorem selectCandidates_max0 (cfg : Config) (s : SSet) (limit : Nat) (now : Int)
    (hmax : cfg.maxValuesCount = 0) :
    selectCandidates cfg s limit now = popByScoreRange s (-1) now limit := by
  unfold selectCandidates
  rw [hmax]
  simp

theorem removeFromDB_decode (st : State) (k : String) (e : EntryVal) (sc : Int) (p : List Nat)
    (hg : storeGet st.store k = some e) (hdec : removeScoreBytes e.val = .ok (sc, p)) :
    removeFromDB st k = (.ok ⟨k, p, "", sc⟩, ⟨storeDelete st.store k, st.set⟩) := by
  unfold removeFromDB
  rw [hg]
  dsimp only
  rw [hdec]

/-- A dequeue from the singleton state whose one score is due returns the
decoded item and empties both the store and the set. -/
theorem retrieve_singleton (cfg : Config) (k : String) (e : EntryVal) (s0 : Int)
    (limit : Nat) (T sc : Int) (p : List Nat)
    (hmax : cfg.maxValuesCount = 0) (hlim : 1 ≤ limit)
    (hlo : -1 ≤ s0) (hhi : s0 ≤ T)
    (hdec : removeScoreBytes e.val = .ok (sc, p)) :
    retrieveFromQueue cfg ⟨[(k, e)], [(k, s0)]⟩ limit T =
      (.ok [⟨k, p, "", sc⟩], ⟨[], []⟩) := by
  obtain ⟨m, rfl⟩ : ∃ m, limit = m + 1 := ⟨limit - 1, by omega⟩
  show removeLoop ⟨[(k, e)], (selectCandidates cfg [(k, s0)] (m + 1) T).2⟩
      (selectCandidates cfg [(k, s0)] (m + 1) T).1 = _
  rw [selectCandidates_max0 cfg [(k, s0)] (m + 1) T hmax]
  rw [popByScoreRange_singleton k s0 (-1) T m hlo hhi]
  simp only [removeLoop]
  have hg : storeGet (⟨[(k, e)], ([] : SSet)⟩ : State).store k = some e := by
    simp [storeGet]
  rw [removeFromDB_decode ⟨[(k, e)], []⟩ k e sc p hg hdec]
  dsimp only [removeLoop]
  have hdel : storeDelete [(k, e)] k = [] := by simp [storeDelete]
  rw [hdel]

/-- C6: enqueueing the same key `N ≥ 1` times (empty unique ids, capacity
disabled, no intervening dequeue) and then dequeuing after the first
deadline yields exactly one item for the key, carrying the *last* payload
written (with the last score). -/
theorem C6_last_write_wins (cfg : Config) (k : String) (p0 : List Nat) (t0 : Int)
    (rest : List (List Nat × Int)) (limit : Nat) (T : Int)
    (hmax : cfg.maxValuesCount = 0) (hlim : 1 ≤ limit)
    (hlo : -1 ≤ t0 + cfg.bufferDuration) (hhi : t0 + cfg.bufferDuration ≤ T)
    (h1 : -(2 ^ 63) ≤ (rest.getLastD (p0, t0)).2 + cfg.bufferDuration)
    (h2 : (rest.getLastD (p0, t0)).2 + cfg.bufferDuration < 2 ^ 63) :
    retrieveFromQueue cfg
        (run cfg ⟨[], []⟩ (((p0, t0) :: rest).map fun pt => Op.enq ⟨k, pt.1, "", 0⟩ pt.2))
        limit T =
      (.ok [⟨k, (rest.getLastD (p0, t0)).1, "",
          (rest.getLastD (p0, t0)).2 + cfg.bufferDuration⟩],
        ⟨[], []⟩) := by
  have hrun : run cfg ⟨[], []⟩ (((p0, t0) :: rest).map fun pt => Op.enq ⟨k, pt.1, "", 0⟩ pt.2) =
      ⟨[(k, mainEntry cfg (rest.getLastD (p0, t0)).1
          ((rest.getLastD (p0, t0)).2 + cfg.bufferDuration))], [(k, t0 + cfg.bufferDuration)]⟩ := by
    simp only [List.map_cons, run, applyOp]
    rw [storeToQueue_empty_state cfg k p0 0 t0 hmax]
    exact run_enq_singleton cfg k hmax rest p0 t0 (t0 + cfg.bufferDuration)
  rw [hrun]
  exact retrieve_singleton cfg k _ _ limit T _ _ hmax hlim hlo hhi
    (decode_encode (rest.getLastD (p0, t0)).1 ((rest.getLastD (p0, t0)).2 + cfg.bufferDuration) h1 h2)

theorem C6_last_write_wins_witness :
    retrieveFromQueue ⟨1, 0, none, none⟩
        (run ⟨1, 0, none, none⟩ ⟨[], []⟩
          ((([1], 0) :: [([2], 3)]).map fun pt => Op.enq ⟨"k", pt.1, "", 0⟩ pt.2))
        1 10 =
      (.ok [⟨"k", [2], "", 4⟩], ⟨[], []⟩) := by
  have h := C6_last_write_wins ⟨1, 0, none, none⟩ "k" [1] 0 [([2], 3)] 1 10
    (by decide) (by decide) (by decide) (by decide) (by decide) (by decide)
  exact h

/-! ## C3 machinery: the store-index coherence invariant -/

theorem popByRankRange_props (s : SSet) (limit : Nat)
    (hnd : (s.map Prod.fst).Nodup) :
    (∀ n ∈ (popByRankRange s limit).1, n ∈ s) ∧
    (((popByRankRange s limit).1.map Prod.fst).Nodup) ∧
    (∀ n ∈ (popByRankRange s limit).2, n ∈ s) ∧
    (((popByRankRange s limit).2.map Prod.fst).Nodup) ∧
    (∀ n ∈ (popByRankRange s limit).2, n.1 ∉ (popByRankRange s limit).1.map Prod.fst) := by
  unfold popByRankRange
  have hsplit : s.take limit ++ s.drop limit = s := List.take_append_drop limit s
  have hnd2 : ((s.take limit).map Prod.fst ++ (s.drop limit).map Prod.fst).Nodup := by
    rw [← List.map_append, hsplit]
    exact hnd
  rcases List.nodup_append.mp hnd2 with ⟨hnd_take, hnd_drop, hdisj⟩
  refine ⟨fun n hn => List.take_subset limit s hn, hnd_take,
    fun n hn => List.drop_subset limit s hn, hnd_drop, ?_⟩
  intro n hn hmem
  exact hdisj hmem (List.mem_map_of_mem Prod.fst hn)

theorem popByScoreRange_props (s : SSet) (lo hi : Int) (limit : Nat)
    (hnd : (s.map Prod.fst).Nodup) :
    (∀ n ∈ (popByScoreRange s lo hi limit).1, n ∈ s) ∧
    (((popByScoreRange s lo hi limit).1.map Prod.fst).Nodup) ∧
    (∀ n ∈ (popByScoreRange s lo hi limit).2, n ∈ s) ∧
    (((popByScoreRange s lo hi limit).2.map Prod.fst).Nodup) ∧
    (∀ n ∈ (popByScoreRange s lo hi limit).2,
      n.1 ∉ (popByScoreRange s lo hi limit).1.map Prod.fst) := by
  unfold popByScoreRange
  dsimp only
  refine ⟨?_, ?_, ?_, ?_, ?_⟩
  · intro n hn
    exact (List.Sublist.trans (List.take_sublist limit _) (List.filter_sublist s)).subset hn
  · exact hnd.sublist
      ((List.Sublist.trans (List.take_sublist limit _) (List.filter_sublist s)).map Prod.fst)
  · intro n hn
    exact (List.filter_sublist s).subset hn
  · exact hnd.sublist ((List.filter_sublist s).map Prod.fst)
  · intro n hn hmem
    rcases List.mem_filter.mp hn with ⟨_, hpred⟩
    rcases List.mem_map.mp hmem with ⟨m, hm, hkey⟩
    exact absurd hkey (of_decide_eq_true hpred m hm)

/-- Candidate selection splits the set: both parts draw from the set,
keep distinct keys, and the remainder's keys avoid the selected keys. -/
theorem selectCandidates_spec (cfg : Config) (s : SSet) (limit : Nat) (now : Int)
    (hnd : (s.map Prod.fst).Nodup) :
    (∀ n ∈ (selectCandidates cfg s limit now).1, n ∈ s) ∧
    (((selectCandidates cfg s limit now).1.map Prod.fst).Nodup) ∧
    (∀ n ∈ (selectCandidates cfg s limit now).2, n ∈ s) ∧
    (((selectCandidates cfg s limit now).2.map Prod.fst).Nodup) ∧
    (∀ n ∈ (selectCandidates cfg s limit now).2,
      n.1 ∉ (selectCandidates cfg s limit now).1.map Prod.fst) := by
  unfold selectCandidates
  by_cases hgate : cfg.maxValuesCount ≠ 0 ∧ cfg.maxValuesCount ≤ s.length
  · rw [if_pos hgate]
    exact popByRankRange_props s limit hnd
  · rw [if_neg hgate]
    exact popByScoreRange_props s (-1) now limit hnd

/-- Like `storeToQueue_no_dedupe`, but assuming only that the capacity
gate passes. -/
theorem storeToQueue_no_dedupe' (cfg : Config) (st : State) (item : StorageItem) (now : Int)
    (hcap : ¬(cfg.maxValuesCount ≠ 0 ∧ cfg.maxValuesCount ≤ st.set.length))
    (hu : item.UniqueID = "") :
    storeToQueue cfg st item now =
      (.ok (), ⟨storeSet st.store item.Key
          ⟨appendScoreBytes item.Value (now + cfg.bufferDuration), cfg.ttlDuration⟩,
        match getByKey st.set item.Key with
        | some _ => st.set
        | none => addOrUpdate st.set item.Key (now + cfg.bufferDuration)⟩) := by
  rw [storeToQueue_passes_gate cfg st item now hcap]
  unfold enqueueTxn
  rw [if_pos hu]

theorem setInv_mono (cfg : Config) (t t' : Int) (st : State)
    (h : SetInv cfg t st) (hle : t ≤ t') : SetInv cfg t' st := by
  refine ⟨h.1, fun n hn => ?_⟩
  rcases h.2 n hn with ⟨e, p, ssc, h1, h2, h3, h4⟩
  exact ⟨e, p, ssc, h1, h2, h3, le_trans h4 (by linarith)⟩

/-- A `StoreToQueue` of an item with empty unique id preserves the
coherence invariant, advancing the time bound to the call's time. -/
theorem setInv_enq (cfg : Config) (st : State) (item : StorageItem) (now t : Int)
    (hinv : SetInv cfg t st) (hu : item.UniqueID = "") (ht : t ≤ now) :
    SetInv cfg now (storeToQueue cfg st item now).2 := by
  by_cases hcap : cfg.maxValuesCount ≠ 0 ∧ cfg.maxValuesCount ≤ st.set.length
  · unfold storeToQueue
    rw [if_pos hcap]
    exact setInv_mono cfg t now st hinv ht
  · rw [storeToQueue_no_dedupe' cfg st item now hcap hu]
    cases hk : getByKey st.set item.Key with
    | some n0 =>
      simp only [hk]
      refine ⟨hinv.1, fun n hn => ?_⟩
      by_cases hkey : n.1 = item.Key
      · refine ⟨⟨appendScoreBytes item.Value (now + cfg.bufferDuration), cfg.ttlDuration⟩,
          item.Value, now + cfg.bufferDuration, ?_, rfl, ?_, le_refl _⟩
        · rw [hkey]
          exact storeGet_storeSet_self st.store item.Key _
        · rcases hinv.2 n hn with ⟨e, p, ssc, _, _, h3, h4⟩
          linarith
      · rcases hinv.2 n hn with ⟨e, p, ssc, h1, h2, h3, h4⟩
        refine ⟨e, p, ssc, ?_, h2, h3, by linarith⟩
        rw [storeGet_storeSet_ne st.store n.1 item.Key _ hkey]
        exact h1
    | none =>
      simp only [hk]
      refine ⟨addOrUpdate_absent_nodup st.set item.Key _ hk hinv.1, fun n hn => ?_⟩
      rw [addOrUpdate_absent st.set item.Key _ hk] at hn
      rcases (mem_setInsert n _ st.set).mp hn with he | hmem
      · rw [he]
        exact ⟨⟨appendScoreBytes item.Value (now + cfg.bufferDuration), cfg.ttlDuration⟩,
          item.Value, now + cfg.bufferDuration,
          storeGet_storeSet_self st.store item.Key _, rfl, le_refl _, le_refl _⟩
      · have hkey : n.1 ≠ item.Key := (getByKey_eq_none_iff st.set item.Key).mp hk n hmem
        rcases hinv.2 n hmem with ⟨e, p, ssc, h1, h2, h3, h4⟩
        refine ⟨e, p, ssc, ?_, h2, h3, by linarith⟩
        rw [storeGet_storeSet_ne st.store n.1 item.Key _ hkey]
        exact h1

/-- A `RetrieveFromQueue` preserves the coherence invariant (under the
invariant every selected candidate decodes, so the loop cannot fail). -/
theorem setInv_deq (cfg : Config) (st : State) (limit : Nat) (now t : Int)
    (hinv : SetInv cfg t st) :
    SetInv cfg t (retrieveFromQueue cfg st limit now).2 := by
  obtain ⟨hsel_sub, hsel_nd, hrem_sub, hrem_nd, hdisj⟩ :=
    selectCandidates_spec cfg st.set limit now hinv.1
  have hlive : ∀ n ∈ (selectCandidates cfg st.set limit now).1,
      liveLong st.store n.1 = true := by
    intro n hn
    rcases hinv.2 n (hsel_sub n hn) with ⟨e, p, ssc, hget, hval, _, _⟩
    apply liveLong_of_entry st.store n.1 e hget
    rw [hval, appendScoreBytes_length]
    omega
  rcases removeLoop_all_live (selectCandidates cfg st.set limit now).1
    ⟨st.store, (selectCandidates cfg st.set limit now).2⟩ hsel_nd hlive with ⟨items, heq⟩
  show SetInv cfg t (removeLoop ⟨st.store, (selectCandidates cfg st.set limit now).2⟩
    (selectCandidates cfg st.set limit now).1).2
  rw [heq]
  refine ⟨hrem_nd, fun n hn => ?_⟩
  rcases hinv.2 n (hrem_sub n hn) with ⟨e, p, ssc, h1, h2, h3, h4⟩
  refine ⟨e, p, ssc, ?_, h2, h3, h4⟩
  rw [storeGet_deleteKeys_not_mem _ _ _ (hdisj n hn)]
  exact h1

/-- Sequential runs of empty-unique-id operations with non-decreasing
call times preserve the coherence invariant. -/
theorem run_inv (cfg : Config) :
    ∀ (ops : List Op) (st : State) (t : Int),
      SetInv cfg t st → (∀ op ∈ ops, opUniq op = "") →
      List.Chain' (· ≤ ·) (t :: ops.map opTime) →
      ∃ t', SetInv cfg t' (run cfg st ops)
  | [], st, t, hinv, _, _ => ⟨t, hinv⟩
  | op :: ops, st, t, hinv, hu, hc => by
    have hct : t ≤ opTime op ∧ List.Chain' (· ≤ ·) (opTime op :: ops.map opTime) := by
      rw [List.map_cons] at hc
      exact List.chain'_cons.mp hc
    have hu' : ∀ o ∈ ops, opUniq o = "" := fun o ho => hu o (List.mem_cons_of_mem op ho)
    cases op with
    | enq item now =>
      have hinv' : SetInv cfg now (applyOp cfg st (.enq item now)) :=
        setInv_enq cfg st item now t hinv (hu _ (List.mem_cons_self _ _)) hct.1
      exact run_inv cfg ops (applyOp cfg st (.enq item now)) now hinv' hu' hct.2
    | deq limit now =>
      have hinv' : SetInv cfg now (applyOp cfg st (.deq limit now)) :=
        setInv_mono cfg t now _ (setInv_deq cfg st limit now t hinv) hct.1
      exact run_inv cfg ops (applyOp cfg st (.deq limit now)) now hinv' hu' hct.2

/-! ## C3: the store-index invariant claim -/

/-- C3 counterexample: from the empty compactor, enqueue `("k", [1])` at
time 0 and again `("k", [2])` at time 1 (buffer duration 5).  The index
keeps the first deadline 5, but the stored value now encodes score 6: the
index's score does not equal the score encoded in the stored value. -/
theorem C3_counterexample :
    getByKey (run ⟨5, 0, none, none⟩ ⟨[], []⟩
        [.enq ⟨"k", [1], "", 0⟩ 0, .enq ⟨"k", [2], "", 0⟩ 1]).set "k" = some ("k", 5) ∧
    storeGet (run ⟨5, 0, none, none⟩ ⟨[], []⟩
        [.enq ⟨"k", [1], "", 0⟩ 0, .enq ⟨"k", [2], "", 0⟩ 1]).store "k" =
      some ⟨appendScoreBytes [2] 6, none⟩ ∧
    removeScoreBytes (appendScoreBytes [2] 6) = .ok (6, [2]) ∧
    (5 : Int) ≠ 6 := by
  refine ⟨?_, ?_, ?_, ?_⟩ <;> decide

/-- C3 (amended): in sequential runs from the empty compactor in which
every enqueued item has an empty unique id and call times are
non-decreasing, after every completed call each key of the index is
backed by a live store entry whose encoded score is at least the index's
score (equality can fail after a repeat enqueue, which raises the stored
score but not the index's). -/
theorem C3_invariant (cfg : Config) (ops : List Op)
    (hu : ∀ op ∈ ops, opUniq op = "")
    (hc : List.Chain' (· ≤ ·) (ops.map opTime)) :
    ∀ n ∈ (run cfg ⟨[], []⟩ ops).set,
      ∃ e p ssc, storeGet (run cfg ⟨[], []⟩ ops).store n.1 = some e ∧
        e.val = appendScoreBytes p ssc ∧ n.2 ≤ ssc := by
  have hbase : SetInv cfg ((ops.map opTime).headD 0) ⟨[], []⟩ := by
    refine ⟨by simp, fun n hn => ?_⟩
    simp at hn
  have hchain : List.Chain' (· ≤ ·) (((ops.map opTime).headD 0) :: ops.map opTime) := by
    cases hops : ops.map opTime with
    | nil => simp
    | cons a l =>
      rw [List.headD_cons]
      exact List.chain'_cons.mpr ⟨le_refl a, hops ▸ hc⟩
  rcases run_inv cfg ops ⟨[], []⟩ _ hbase hu hchain with ⟨t', hinv⟩
  intro n hn
  rcases hinv.2 n hn with ⟨e, p, ssc, h1, h2, h3, _⟩
  exact ⟨e, p, ssc, h1, h2, h3⟩

theorem C3_invariant_witness :
    (storeGet (run ⟨5, 0, none, none⟩ ⟨[], []⟩
      [.enq ⟨"a", [1], "", 0⟩ 2, .deq 3 5]).store "a").isSome = true := by
  rcases C3_invariant ⟨5, 0, none, none⟩ [.enq ⟨"a", [1], "", 0⟩ 2, .deq 3 5]
    (by decide) (List.chain'_cons.mpr ⟨by decide, List.chain'_singleton _⟩) ("a", 7)
    (by decide) with ⟨e, p, ssc, hget, _, _⟩
  rw [hget]
  rfl

end BufferCompact
